import Mathlib

/-!
Verification of the `backon` retry library

Shallow embedding of the core of the `backon` repository:

* the three backoff strategies (`ConstantBackoff`, `ExponentialBackoff`,
  `FibonacciBackoff`) from `src/backon/src/backoff/{constant,exponential,fibonacci}.rs`,
* the asynchronous retry driver `Retry::poll` from `src/backon/src/retry.rs`,
* the blocking retry driver `BlockingRetry::call` from `src/src/blocking_retry.rs`.

Modelling conventions:

* `core::time::Duration` is modelled as a number of nanoseconds (`Nat`).
  A Rust `Duration` always satisfies `d ≤ DMAX` where
  `DMAX = (2^64 - 1) * 10^9 + 999999999` is `Duration::MAX` in nanoseconds.
  `Duration::saturating_add` becomes `satAdd`; the panicking `+` operator
  (`impl Add for Duration`, which calls `checked_add(..).expect(..)`) becomes
  `addChecked`, returning `none` exactly when Rust would panic.
* an `f32` value is modelled as an exact fraction `F32` (an integer numerator
  over a positive natural denominator).  `f32` arithmetic on durations
  (`Duration::mul_f32`, `Duration::try_from_secs_f32`) is idealised as exact
  fraction arithmetic followed by rounding to the nearest whole nanosecond
  (`mulF32`, `saturating_mul`).  This ignores the 24-bit mantissa quantisation
  of intermediate `f32` results but keeps the exact values for every quantity
  appearing in the claims (small integers, halves, and the saturation
  threshold).
* the `fastrand::Rng` state is modelled as the list of `f32` values that
  `rng.f32()` will return, in order; each draw consumes the head of the list
  and an exhausted list keeps returning `0`.  A value drawn from `[0, 1)` is
  an `f32`, hence satisfies `0 ≤ u ≤ 1 - 2⁻²⁴` (the largest `f32` below `1`);
  this is the predicate `F32unit`.
* the `usize` attempt counter lives in `Nat`; `max_times.unwrap_or(usize::MAX)`
  becomes `Option.getD max_times USIZE_MAX` with `USIZE_MAX = 2^64 - 1`.
-/

deriving instance DecidableEq for Except

/-- `Duration::MAX` in nanoseconds: `u64::MAX` seconds plus `999_999_999` ns. -/
def DMAX : Nat := (2 ^ 64 - 1) * 10 ^ 9 + 999999999

/-- `usize::MAX` on a 64-bit target. -/
def USIZE_MAX : Nat := 2 ^ 64 - 1

/-- `Duration::saturating_add`: addition clamped at `Duration::MAX`. -/
def satAdd (a b : Nat) : Nat := min (a + b) DMAX

/-- The panicking `+` on `Duration` (`checked_add(..).expect(..)`):
`none` models the Rust panic `overflow when adding durations`. -/
def addChecked (a b : Nat) : Option Nat :=
  if a + b ≤ DMAX then some (a + b) else none

/-- An `f32` value, kept as the exact fraction `num / den`. -/
structure F32 where
  num : Int
  den : Nat
deriving DecidableEq

/-- The fraction `u` is a value `rng.f32()` can return: a non-negative `f32`
below `1`.  The largest `f32` below `1` is `1 - 2⁻²⁴`, hence the bound. -/
def F32unit (u : F32) : Prop :=
  0 < u.den ∧ 0 ≤ u.num ∧ u.num.toNat * 2 ^ 24 ≤ (2 ^ 24 - 1) * u.den

instance (u : F32) : Decidable (F32unit u) := by
  unfold F32unit; infer_instance

/-- `Duration::mul_f32` for the non-negative factors the library feeds it
(an `rng.f32()` draw in `[0, 1)`): the exact product `u * d`, rounded to the
nearest nanosecond (`⌊u * d + 1/2⌋`). -/
def mulF32 (d : Nat) (u : F32) : Nat :=
  (2 * u.num.toNat * d + u.den) / (2 * u.den)

/-- `saturating_mul` from `src/backon/src/backoff/exponential.rs`:
`Duration::try_from_secs_f32(rhs * d.as_secs_f32()).unwrap_or(Duration::MAX)`.
`try_from_secs_f32` fails on a negative or out-of-range value, in which case
the result is `Duration::MAX`; otherwise it rounds to the nearest nanosecond. -/
def saturating_mul (d : Nat) (rhs : F32) : Nat :=
  if rhs.num < 0 ∧ d ≠ 0 then DMAX
  else min ((2 * rhs.num.toNat * d + rhs.den) / (2 * rhs.den)) DMAX

/-- One `rng.f32()` draw from the modelled generator state. -/
def drawF : List F32 → F32 × List F32
  | [] => (⟨0, 1⟩, [])
  | u :: r => (u, r)

/-- The `i`-th `f32` value a generator state will produce. -/
def nthDraw : List F32 → Nat → F32
  | [], _ => ⟨0, 1⟩
  | u :: _, 0 => u
  | _ :: r, i + 1 => nthDraw r i

/-! ## Constant backoff (`src/backon/src/backoff/constant.rs`) -/

/-- `ConstantBuilder`: the immutable policy for the constant strategy. -/
structure ConstantBuilder where
  delay : Nat
  max_times : Option Nat
  jitter : Bool
  seed : Option Nat
deriving DecidableEq

/-- `ConstantBuilder::new` (also its `Default`): delay 1s, max_times 3. -/
def ConstantBuilder.new : ConstantBuilder :=
  { delay := 10 ^ 9, max_times := some 3, jitter := false, seed := none }

/-- `ConstantBackoff`: the built sequence state. -/
structure ConstantBackoff where
  delay : Nat
  max_times : Option Nat
  attempts : Nat
  jitter : Bool
  rng : List F32
deriving DecidableEq

/-- `BackoffBuilder::build for ConstantBuilder`.  The `rng` argument is the
stream of `f32` draws the freshly created `fastrand::Rng` will produce
(seed-derived when `seed` is set, entropy-derived otherwise). -/
def ConstantBuilder.build (b : ConstantBuilder) (rng : List F32) : ConstantBackoff :=
  { delay := b.delay, max_times := b.max_times, attempts := 0,
    jitter := b.jitter, rng := rng }

/-- The `delay` closure inside `ConstantBackoff::next`: the configured delay,
plus `delay.mul_f32(rng.f32())` via the panicking `+` when jitter is on. -/
def ConstantBackoff.delayDraw (c : ConstantBackoff) : Except Unit (Nat × List F32) :=
  if c.jitter then
    let p := drawF c.rng
    match addChecked c.delay (mulF32 c.delay p.1) with
    | some v => .ok (v, p.2)
    | none => .error ()
  else .ok (c.delay, c.rng)

/-- `Iterator::next for ConstantBackoff`.  `.error ()` models a panic,
`.ok (none, _)` exhaustion, `.ok (some d, _)` a yielded delay. -/
def ConstantBackoff.next (c : ConstantBackoff) :
    Except Unit (Option Nat × ConstantBackoff) :=
  match c.max_times with
  | none =>
    match c.delayDraw with
    | .error e => .error e
    | .ok (v, r) => .ok (some v, { c with rng := r })
  | some mt =>
    if mt ≤ c.attempts then .ok (none, c)
    else
      match c.delayDraw with
      | .error e => .error e
      | .ok (v, r) => .ok (some v, { c with attempts := c.attempts + 1, rng := r })

/-! ## Exponential backoff (`src/backon/src/backoff/exponential.rs`) -/

/-- `ExponentialBuilder`: the immutable policy for the exponential strategy. -/
structure ExponentialBuilder where
  jitter : Bool
  factor : F32
  min_delay : Nat
  max_delay : Option Nat
  max_times : Option Nat
  total_delay : Option Nat
  seed : Option Nat
deriving DecidableEq

/-- `ExponentialBuilder::new` (also its `Default`): no jitter, factor 2,
min_delay 1s, max_delay 60s, max_times 3, no total_delay, no seed. -/
def ExponentialBuilder.new : ExponentialBuilder :=
  { jitter := false, factor := ⟨2, 1⟩, min_delay := 10 ^ 9,
    max_delay := some (60 * 10 ^ 9), max_times := some 3,
    total_delay := none, seed := none }

/-- `ExponentialBackoff`: the built sequence state. -/
structure ExponentialBackoff where
  jitter : Bool
  rng : List F32
  factor : F32
  min_delay : Nat
  max_delay : Option Nat
  max_times : Option Nat
  total_delay : Option Nat
  current_delay : Option Nat
  cumulative_delay : Nat
  attempts : Nat
deriving DecidableEq

/-- `BackoffBuilder::build for ExponentialBuilder`.  The `rng` argument is the
stream of `f32` draws the freshly created `fastrand::Rng` will produce. -/
def ExponentialBuilder.build (b : ExponentialBuilder) (rng : List F32) :
    ExponentialBackoff :=
  { jitter := b.jitter, rng := rng, factor := b.factor,
    min_delay := b.min_delay, max_delay := b.max_delay,
    max_times := b.max_times, total_delay := b.total_delay,
    current_delay := none, cumulative_delay := 0, attempts := 0 }

/-- The un-jittered next delay of `ExponentialBackoff::next`: `min_delay` on
the first call, otherwise the current delay grown by `factor` (only while
strictly below `max_delay`) and clamped down to `max_delay`. -/
def expTmpCur (current_delay : Option Nat) (max_delay : Option Nat)
    (factor : F32) (min_delay : Nat) : Nat :=
  match current_delay with
  | none => min_delay
  | some cur =>
    match max_delay with
    | some md =>
      let c1 := if cur < md then saturating_mul cur factor else cur
      if md < c1 then md else c1
    | none => saturating_mul cur factor

/-- `Iterator::next for ExponentialBackoff`.  The total-delay check uses the
panicking `+` (`self.cumulative_delay + tmp_cur <= total`), modelled by
`addChecked`; `.error ()` is that panic. -/
def ExponentialBackoff.next (b : ExponentialBackoff) :
    Except Unit (Option Nat × ExponentialBackoff) :=
  if b.max_times.getD USIZE_MAX ≤ b.attempts then .ok (none, b)
  else
    let b1 := { b with attempts := b.attempts + 1 }
    let tmp0 := expTmpCur b1.current_delay b1.max_delay b1.factor b1.min_delay
    let jd :=
      if b1.jitter then
        let p := drawF b1.rng
        (satAdd tmp0 (mulF32 tmp0 p.1), p.2)
      else (tmp0, b1.rng)
    let b2 := { b1 with rng := jd.2 }
    match b2.total_delay with
    | none => .ok (some jd.1, { b2 with current_delay := some tmp0 })
    | some total =>
      match addChecked b2.cumulative_delay jd.1 with
      | none => .error ()
      | some sum =>
        if total < sum then .ok (none, b2)
        else
          .ok (some jd.1,
            { b2 with cumulative_delay := satAdd b2.cumulative_delay jd.1,
                      current_delay := some tmp0 })

/-! ## Fibonacci backoff (`src/backon/src/backoff/fibonacci.rs`) -/

/-- `FibonacciBuilder`: the immutable policy for the Fibonacci strategy. -/
structure FibonacciBuilder where
  jitter : Bool
  seed : Option Nat
  min_delay : Nat
  max_delay : Option Nat
  max_times : Option Nat
deriving DecidableEq

/-- `FibonacciBuilder::new` (also its `Default`): no jitter, min_delay 1s,
max_delay 60s, max_times 3. -/
def FibonacciBuilder.new : FibonacciBuilder :=
  { jitter := false, seed := none, min_delay := 10 ^ 9,
    max_delay := some (60 * 10 ^ 9), max_times := some 3 }

/-- `FibonacciBackoff`: the built sequence state. -/
structure FibonacciBackoff where
  jitter : Bool
  rng : List F32
  min_delay : Nat
  max_delay : Option Nat
  max_times : Option Nat
  previous_delay : Option Nat
  current_delay : Option Nat
  attempts : Nat
deriving DecidableEq

/-- `BackoffBuilder::build for FibonacciBuilder`.  The `rng` argument is the
stream of `f32` draws the freshly created `fastrand::Rng` will produce. -/
def FibonacciBuilder.build (b : FibonacciBuilder) (rng : List F32) :
    FibonacciBackoff :=
  { jitter := b.jitter, rng := rng, min_delay := b.min_delay,
    max_delay := b.max_delay, max_times := b.max_times,
    previous_delay := none, current_delay := none, attempts := 0 }

/-- `Iterator::next for FibonacciBackoff`.  The jitter additions use the
panicking `+` (`next += ...mul_f32(...)`), modelled by `addChecked`. -/
def FibonacciBackoff.next (b : FibonacciBackoff) :
    Except Unit (Option Nat × FibonacciBackoff) :=
  if b.max_times.getD USIZE_MAX ≤ b.attempts then .ok (none, b)
  else
    let b1 := { b with attempts := b.attempts + 1 }
    match b1.current_delay with
    | none =>
      let nxt := b1.min_delay
      let b2 := { b1 with current_delay := some nxt }
      if b2.jitter then
        let p := drawF b2.rng
        match addChecked nxt (mulF32 nxt p.1) with
        | some v => .ok (some v, { b2 with rng := p.2 })
        | none => .error ()
      else .ok (some nxt, b2)
    | some cur =>
      let s :=
        if cur < b1.max_delay.getD DMAX then
          match b1.previous_delay with
          | some prev =>
            (satAdd cur prev,
              { b1 with current_delay := some (satAdd cur prev),
                        previous_delay := some cur })
          | none => (cur, { b1 with previous_delay := some cur })
        else (cur, b1)
      if s.2.jitter then
        let p := drawF s.2.rng
        match addChecked s.1 (mulF32 s.2.min_delay p.1) with
        | some v => .ok (some v, { s.2 with rng := p.2 })
        | none => .error ()
      else .ok (some s.1, s.2)

/-! ## Driving a backoff sequence -/

/-- Run `k` successive `next` calls on a backoff state, collecting the
`Option Duration` results; propagates a panic. -/
def runB {σ : Type} (step : σ → Except Unit (Option Nat × σ)) :
    Nat → σ → Except Unit (List (Option Nat) × σ)
  | 0, s => .ok ([], s)
  | k + 1, s =>
    match step s with
    | .error e => .error e
    | .ok (o, s') =>
      match runB step k s' with
      | .error e => .error e
      | .ok (outs, s'') => .ok (o :: outs, s'')

/-- The list of results of `k` successive `next` calls, or `none` if one of
them panics. -/
def runOuts {σ : Type} (step : σ → Except Unit (Option Nat × σ)) (k : Nat)
    (s : σ) : Option (List (Option Nat)) :=
  match runB step k s with
  | .ok (outs, _) => some outs
  | .error _ => none

/-! ## The retry drivers

The drivers are generic over the backoff: they only observe the stream of
`Option Duration` answers of `next`.  For the driver theorems the backoff is
therefore modelled at that interface, as the list of delays it will yield
before exhausting.  An operation is modelled by the result of each of its
invocations (`op k` is the outcome of invocation number `k`, counted from 0).
The driver run is recorded as a trace of events. -/

/-- Observable events of one retry loop: invoking the operation, invoking the
notify hook, and starting the sleep for a backoff delay. -/
inductive REvent (E : Type) where
  | opCall (k : Nat)
  | notifyCall (k : Nat) (err : E) (dur : Nat)
  | sleepCall (k : Nat) (dur : Nat)
deriving DecidableEq

/-- `Retry::poll` from `src/backon/src/retry.rs`, run to completion: from
`Idle`, invoke the operation; on success return it; on failure consult the
retryable predicate (returning the error directly when not retryable), then
the backoff (returning the error when exhausted), otherwise notify, sleep and
loop.  Returns the event trace, the final result, and the un-consumed rest of
the backoff sequence. -/
def retryPoll {T E : Type} (op : Nat → Except E T) (retryable : E → Bool) :
    List Nat → Nat → List (REvent E) × Except E T × List Nat
  | delays, k =>
    match op k with
    | .ok v => ([.opCall k], .ok v, delays)
    | .error err =>
      if retryable err = false then ([.opCall k], .error err, delays)
      else
        match delays with
        | [] => ([.opCall k], .error err, [])
        | d :: rest =>
          let r := retryPoll op retryable rest (k + 1)
          (.opCall k :: .notifyCall k err d :: .sleepCall k d :: r.1, r.2)

/-- `BlockingRetry::call` (the variant with both a retryable predicate and a
notify hook) from `src/src/blocking_retry.rs`: the same loop, executed
synchronously with `thread::sleep`. -/
def blockingCall {T E : Type} (op : Nat → Except E T) (retryable : E → Bool) :
    List Nat → Nat → List (REvent E) × Except E T × List Nat
  | delays, k =>
    match op k with
    | .ok v => ([.opCall k], .ok v, delays)
    | .error err =>
      if retryable err = false then ([.opCall k], .error err, delays)
      else
        match delays with
        | [] => ([.opCall k], .error err, [])
        | d :: rest =>
          let r := blockingCall op retryable rest (k + 1)
          (.opCall k :: .notifyCall k err d :: .sleepCall k d :: r.1, r.2)

/-- Number of operation invocations in a trace. -/
def countOp {E : Type} : List (REvent E) → Nat
  | [] => 0
  | .opCall _ :: tr => countOp tr + 1
  | _ :: tr => countOp tr

/-- Number of notify-hook invocations in a trace. -/
def countNotify {E : Type} : List (REvent E) → Nat
  | [] => 0
  | .notifyCall _ _ _ :: tr => countNotify tr + 1
  | _ :: tr => countNotify tr

/-- Number of sleeps begun in a trace. -/
def countSleep {E : Type} : List (REvent E) → Nat
  | [] => 0
  | .sleepCall _ _ :: tr => countSleep tr + 1
  | _ :: tr => countSleep tr

/-- The `current_delay` field recorded after `k` advances of an exponential
sequence (`none` if a call panicked). -/
def runCur (k : Nat) (s : ExponentialBackoff) : Option (Option Nat) :=
  match runB ExponentialBackoff.next k s with
  | .ok (_, s') => some s'.current_delay
  | .error _ => none

/-- The state of a jitter-free, unbounded (`max_times = None`) Fibonacci
sequence after `k` advances (used to state the Fibonacci recurrence). -/
def fibState (mind : Nat) (maxd : Option Nat) : Nat → FibonacciBackoff
  | 0 => FibonacciBuilder.build ⟨false, none, mind, maxd, none⟩ []
  | k + 1 =>
    match FibonacciBackoff.next (fibState mind maxd k) with
    | .ok (_, s') => s'
    | .error _ => fibState mind maxd k

/-- The delay yielded by advance number `k+1` (0-based `k`) of that
jitter-free unbounded Fibonacci sequence. -/
def fibOut (mind : Nat) (maxd : Option Nat) (k : Nat) : Nat :=
  match FibonacciBackoff.next (fibState mind maxd k) with
  | .ok (some d, _) => d
  | _ => 0

/-- Invariant of the jitter-free unbounded Fibonacci run after `j+1`
advances: the recorded current delay is the last yielded delay, and — while
growth is still active — the recorded previous delay is the yielded delay
before it. -/
def FibInv (mind : Nat) (maxd : Option Nat) (j : Nat) (s : FibonacciBackoff) : Prop :=
  s.jitter = false ∧ s.min_delay = mind ∧ s.max_delay = maxd ∧
  s.max_times = none ∧ s.attempts = j + 1 ∧
  s.current_delay = some (fibOut mind maxd j) ∧
  (fibOut mind maxd j < maxd.getD DMAX →
    s.previous_delay = (if j = 0 then none else some (fibOut mind maxd (j - 1))))

/-! ## Sanity checks against the Rust unit tests -/

example :
    runOuts ExponentialBackoff.next 4 (ExponentialBuilder.new.build []) =
      some [some (10 ^ 9), some (2 * 10 ^ 9), some (4 * 10 ^ 9), none] := by
  decide

example :
    runOuts FibonacciBackoff.next 4 (FibonacciBuilder.new.build []) =
      some [some (10 ^ 9), some (10 ^ 9), some (2 * 10 ^ 9), none] := by
  decide

example :
    runOuts ConstantBackoff.next 4 (ConstantBuilder.new.build []) =
      some [some (10 ^ 9), some (10 ^ 9), some (10 ^ 9), none] := by
  decide

/- Fidelity check against `test_exponential_no_max_delay_with_default`:
factor 10^10, no max_delay, max_times 4 yields 1s, 10^10 s, MAX, MAX, None. -/
example :
    runOuts ExponentialBackoff.next 5
      ({ ExponentialBuilder.new with
          factor := ⟨10 ^ 10, 1⟩
          max_delay := none
          max_times := some 4 }.build []) =
      some [some (10 ^ 9), some (10 ^ 19), some DMAX, some DMAX, none] := by
  decide

/- Fidelity check against `test_exponential_max_delay_with_default`:
max_delay 2s yields 1s, 2s, 2s, None. -/
example :
    runOuts ExponentialBackoff.next 4
      ({ ExponentialBuilder.new with max_delay := some (2 * 10 ^ 9) }.build []) =
      some [some (10 ^ 9), some (2 * 10 ^ 9), some (2 * 10 ^ 9), none] := by
  decide

/- Fidelity check against `test_fibonacci_max_delay`:
max_times 4, max_delay 2s yields 1s, 1s, 2s, 2s, None. -/
example :
    runOuts FibonacciBackoff.next 5
      ({ FibonacciBuilder.new with
          max_times := some 4
          max_delay := some (2 * 10 ^ 9) }.build []) =
      some [some (10 ^ 9), some (10 ^ 9), some (2 * 10 ^ 9), some (2 * 10 ^ 9), none] := by
  decide

/- Fidelity check against `test_exponential_total_delay`: factor 1,
total_delay 3s, max_times 5 yields 1s, 1s, 1s, None. -/
example :
    runOuts ExponentialBackoff.next 4
      ({ ExponentialBuilder.new with
          factor := ⟨1, 1⟩
          total_delay := some (3 * 10 ^ 9)
          max_times := some 5 }.build []) =
      some [some (10 ^ 9), some (10 ^ 9), some (10 ^ 9), none] := by
  decide


/-! ## Generic lemmas about `runB` -/

theorem runB_fixed {σ : Type} (step : σ → Except Unit (Option Nat × σ)) (s : σ)
    (h : step s = .ok (none, s)) :
    ∀ k, runB step k s = .ok (List.replicate k none, s) := by
  intro k
  induction k with
  | zero => rfl
  | succ k ih => simp [runB, h, ih, List.replicate]

theorem runB_split {σ : Type} (step : σ → Except Unit (Option Nat × σ))
    (m n : Nat) (s : σ) (o1 o2 : List (Option Nat)) (s1 s2 : σ)
    (h1 : runB step m s = .ok (o1, s1)) (h2 : runB step n s1 = .ok (o2, s2)) :
    runB step (m + n) s = .ok (o1 ++ o2, s2) := by
  induction m generalizing s o1 with
  | zero =>
    rw [runB] at h1
    simp only [Except.ok.injEq, Prod.mk.injEq] at h1
    obtain ⟨rfl, rfl⟩ := h1
    simpa using h2
  | succ m ih =>
    have hmn : m + 1 + n = (m + n) + 1 := by omega
    rw [hmn, runB]
    rw [runB] at h1
    cases hstep : step s with
    | error e => simp [hstep] at h1
    | ok p =>
      obtain ⟨o, s'⟩ := p
      simp only [hstep] at h1 ⊢
      cases hr : runB step m s' with
      | error e => simp [hr] at h1
      | ok q =>
        obtain ⟨outs, s''⟩ := q
        simp only [hr] at h1
        injection h1 with hp
        have h1a := congrArg Prod.fst hp
        have h1b := congrArg Prod.snd hp
        simp only at h1a h1b
        subst h1a
        subst h1b
        simp [ih s' outs hr]

/-! ## Counting lemmas: a `max_times`-style step yields on exactly the first
`n` advances -/

theorem runB_count {σ : Type} (step : σ → Except Unit (Option Nat × σ))
    (att : σ → Nat) (n : Nat) (P : σ → Prop)
    (hstep : ∀ s o s', P s → step s = .ok (o, s') →
      P s' ∧ o.isSome = decide (att s < n) ∧
        att s' = (if att s < n then att s + 1 else att s)) :
    ∀ k s outs s', P s → runB step k s = .ok (outs, s') →
      outs.length = k ∧
      ∀ i, i < outs.length → (outs.getD i none).isSome = decide (att s + i < n) := by
  intro k
  induction k with
  | zero =>
    intro s outs s' _ h
    rw [runB] at h
    simp only [Except.ok.injEq, Prod.mk.injEq] at h
    obtain ⟨rfl, rfl⟩ := h
    simp
  | succ k ih =>
    intro s outs s' hP h
    rw [runB] at h
    cases hs : step s with
    | error e => simp [hs] at h
    | ok p =>
      obtain ⟨o, s1⟩ := p
      obtain ⟨hP1, hsome, hatt⟩ := hstep s o s1 hP hs
      simp only [hs] at h
      cases hr : runB step k s1 with
      | error e => simp [hr] at h
      | ok q =>
        obtain ⟨outs1, s2⟩ := q
        simp only [hr, Except.ok.injEq, Prod.mk.injEq] at h
        obtain ⟨rfl, rfl⟩ := h
        obtain ⟨hlen, hel⟩ := ih s1 outs1 _ hP1 hr
        refine ⟨by simp [hlen], ?_⟩
        intro i hi
        cases i with
        | zero => simpa using hsome
        | succ i =>
          simp only [List.getD_cons_succ]
          rw [hel i (by simpa using hi)]
          rw [decide_eq_decide]
          by_cases hlt : att s < n
          · rw [hatt, if_pos hlt]
            omega
          · rw [hatt, if_neg hlt]
            omega

theorem const_next_spec (n : Nat) (c : ConstantBackoff) (o : Option Nat)
    (c' : ConstantBackoff) (hmt : c.max_times = some n)
    (h : ConstantBackoff.next c = .ok (o, c')) :
    c'.max_times = some n ∧ o.isSome = decide (c.attempts < n) ∧
    c'.attempts = (if c.attempts < n then c.attempts + 1 else c.attempts) := by
  unfold ConstantBackoff.next at h
  simp only [hmt] at h
  by_cases ha : n ≤ c.attempts
  · rw [if_pos ha] at h
    simp only [Except.ok.injEq, Prod.mk.injEq] at h
    obtain ⟨rfl, rfl⟩ := h
    simp [hmt, Nat.not_lt.2 ha]
  · rw [if_neg ha] at h
    cases hd : c.delayDraw with
    | error e => simp [hd] at h
    | ok p =>
      obtain ⟨v, r⟩ := p
      simp only [hd, Except.ok.injEq, Prod.mk.injEq] at h
      obtain ⟨rfl, rfl⟩ := h
      simp [hmt, Nat.not_le.1 ha]

theorem exp_next_spec (n : Nat) (s : ExponentialBackoff) (o : Option Nat)
    (s' : ExponentialBackoff) (hmt : s.max_times = some n)
    (htd : s.total_delay = none)
    (h : ExponentialBackoff.next s = .ok (o, s')) :
    (s'.max_times = some n ∧ s'.total_delay = none) ∧
    o.isSome = decide (s.attempts < n) ∧
    s'.attempts = (if s.attempts < n then s.attempts + 1 else s.attempts) := by
  unfold ExponentialBackoff.next at h
  simp only [hmt, Option.getD_some] at h
  by_cases ha : n ≤ s.attempts
  · rw [if_pos ha] at h
    simp only [Except.ok.injEq, Prod.mk.injEq] at h
    obtain ⟨rfl, rfl⟩ := h
    simp [hmt, htd, Nat.not_lt.2 ha]
  · rw [if_neg ha] at h
    have ha2 := Nat.not_le.1 ha
    simp only [htd] at h
    repeat' split at h
    all_goals
      first
        | exact Except.noConfusion h
        | (simp only [Except.ok.injEq, Prod.mk.injEq] at h
           obtain ⟨rfl, rfl⟩ := h
           simp [hmt, htd, ha2])

theorem fib_next_spec (n : Nat) (b : FibonacciBackoff) (o : Option Nat)
    (b' : FibonacciBackoff) (hmt : b.max_times = some n)
    (h : FibonacciBackoff.next b = .ok (o, b')) :
    b'.max_times = some n ∧ o.isSome = decide (b.attempts < n) ∧
    b'.attempts = (if b.attempts < n then b.attempts + 1 else b.attempts) := by
  unfold FibonacciBackoff.next at h
  simp only [hmt, Option.getD_some] at h
  by_cases ha : n ≤ b.attempts
  · rw [if_pos ha] at h
    simp only [Except.ok.injEq, Prod.mk.injEq] at h
    obtain ⟨rfl, rfl⟩ := h
    simp [hmt, Nat.not_lt.2 ha]
  · rw [if_neg ha] at h
    have ha2 := Nat.not_le.1 ha
    repeat' split at h
    all_goals
      first
        | exact Except.noConfusion h
        | (simp only [Except.ok.injEq, Prod.mk.injEq] at h
           obtain ⟨rfl, rfl⟩ := h
           simp [hmt, ha2])

/-! ## Permanence lemmas: states that keep answering `none` -/

theorem runB_perm {σ : Type} (step : σ → Except Unit (Option Nat × σ))
    (R : σ → Prop)
    (hstep : ∀ s, R s → ∃ s', step s = .ok (none, s') ∧ R s') :
    ∀ k s, R s → ∃ s', runB step k s = .ok (List.replicate k none, s') := by
  intro k
  induction k with
  | zero => intro s _; exact ⟨s, rfl⟩
  | succ k ih =>
    intro s hR
    obtain ⟨s1, hs1, hR1⟩ := hstep s hR
    obtain ⟨s2, hs2⟩ := ih s1 hR1
    refine ⟨s2, ?_⟩
    rw [runB]
    simp [hs1, hs2, List.replicate]

theorem const_exhausted_step (c : ConstantBackoff) (m : Nat)
    (hmt : c.max_times = some m) (ha : m ≤ c.attempts) :
    ConstantBackoff.next c = .ok (none, c) := by
  unfold ConstantBackoff.next
  simp only [hmt]
  rw [if_pos ha]

theorem const_next_none (c c' : ConstantBackoff)
    (h : ConstantBackoff.next c = .ok (none, c')) :
    c' = c ∧ ∃ m, c.max_times = some m ∧ m ≤ c.attempts := by
  unfold ConstantBackoff.next at h
  cases hmt : c.max_times with
  | none =>
    simp only [hmt] at h
    repeat' split at h
    · exact Except.noConfusion h
    · simp at h
  | some m =>
    simp only [hmt] at h
    by_cases ha : m ≤ c.attempts
    · rw [if_pos ha] at h
      simp only [Except.ok.injEq, Prod.mk.injEq] at h
      exact ⟨h.2.symm, m, rfl, ha⟩
    · rw [if_neg ha] at h
      repeat' split at h
      · exact Except.noConfusion h
      · simp at h

theorem fib_exhausted_step (b : FibonacciBackoff)
    (ha : b.max_times.getD USIZE_MAX ≤ b.attempts) :
    FibonacciBackoff.next b = .ok (none, b) := by
  unfold FibonacciBackoff.next
  rw [if_pos ha]

theorem fib_next_none (b b' : FibonacciBackoff)
    (h : FibonacciBackoff.next b = .ok (none, b')) :
    b' = b ∧ b.max_times.getD USIZE_MAX ≤ b.attempts := by
  unfold FibonacciBackoff.next at h
  by_cases ha : b.max_times.getD USIZE_MAX ≤ b.attempts
  · rw [if_pos ha] at h
    simp only [Except.ok.injEq, Prod.mk.injEq] at h
    exact ⟨h.2.symm, ha⟩
  · rw [if_neg ha] at h
    cases hc : b.current_delay with
    | none =>
      cases hj : b.jitter with
      | false => simp [hc, hj] at h
      | true =>
        cases hadd : addChecked b.min_delay (mulF32 b.min_delay (drawF b.rng).1) with
        | none => simp [hc, hj, hadd] at h
        | some v => simp [hc, hj, hadd] at h
    | some cur =>
      by_cases hlt : cur < b.max_delay.getD DMAX
      · cases hp : b.previous_delay with
        | some prev =>
          cases hj : b.jitter with
          | false => simp [hc, hlt, hp, hj] at h
          | true =>
            cases hadd : addChecked (satAdd cur prev)
                (mulF32 b.min_delay (drawF b.rng).1) with
            | none => simp [hc, hlt, hp, hj, hadd] at h
            | some v => simp [hc, hlt, hp, hj, hadd] at h
        | none =>
          cases hj : b.jitter with
          | false => simp [hc, hlt, hp, hj] at h
          | true =>
            cases hadd : addChecked cur (mulF32 b.min_delay (drawF b.rng).1) with
            | none => simp [hc, hlt, hp, hj, hadd] at h
            | some v => simp [hc, hlt, hp, hj, hadd] at h
      · cases hj : b.jitter with
        | false => simp [hc, hlt, hj] at h
        | true =>
          cases hadd : addChecked cur (mulF32 b.min_delay (drawF b.rng).1) with
          | none => simp [hc, hlt, hj, hadd] at h
          | some v => simp [hc, hlt, hj, hadd] at h

theorem exp_exhausted_step (s : ExponentialBackoff)
    (ha : s.max_times.getD USIZE_MAX ≤ s.attempts) :
    ExponentialBackoff.next s = .ok (none, s) := by
  unfold ExponentialBackoff.next
  rw [if_pos ha]

theorem exp_next_none_nt (s s' : ExponentialBackoff)
    (htd : s.total_delay = none)
    (h : ExponentialBackoff.next s = .ok (none, s')) :
    s' = s ∧ s.max_times.getD USIZE_MAX ≤ s.attempts := by
  unfold ExponentialBackoff.next at h
  by_cases ha : s.max_times.getD USIZE_MAX ≤ s.attempts
  · rw [if_pos ha] at h
    simp only [Except.ok.injEq, Prod.mk.injEq] at h
    exact ⟨h.2.symm, ha⟩
  · rw [if_neg ha] at h
    simp only [htd] at h
    repeat' split at h
    all_goals first
      | exact Except.noConfusion h
      | simp at h


theorem exp_panic_step (s : ExponentialBackoff) (hj : s.jitter = false) (t : Nat)
    (ha : ¬ s.max_times.getD USIZE_MAX ≤ s.attempts) (htd : s.total_delay = some t)
    (hadd : addChecked s.cumulative_delay
      (expTmpCur s.current_delay s.max_delay s.factor s.min_delay) = none) :
    ExponentialBackoff.next s = .error () := by
  unfold ExponentialBackoff.next
  rw [if_neg ha]
  simp [htd, hj, hadd]

theorem exp_budget_step (s : ExponentialBackoff) (hj : s.jitter = false) (t sum : Nat)
    (ha : ¬ s.max_times.getD USIZE_MAX ≤ s.attempts) (htd : s.total_delay = some t)
    (hadd : addChecked s.cumulative_delay
      (expTmpCur s.current_delay s.max_delay s.factor s.min_delay) = some sum) (hts : t < sum) :
    ExponentialBackoff.next s = .ok (none, { s with attempts := s.attempts + 1 }) := by
  unfold ExponentialBackoff.next
  rw [if_neg ha]
  simp [htd, hj, hadd, hts]

theorem exp_yield_budget_step (s : ExponentialBackoff) (hj : s.jitter = false)
    (t sum : Nat)
    (ha : ¬ s.max_times.getD USIZE_MAX ≤ s.attempts) (htd : s.total_delay = some t)
    (hadd : addChecked s.cumulative_delay
      (expTmpCur s.current_delay s.max_delay s.factor s.min_delay) = some sum)
    (hts : ¬ t < sum) :
    ExponentialBackoff.next s =
      .ok (some (expTmpCur s.current_delay s.max_delay s.factor s.min_delay),
        { s with
            attempts := s.attempts + 1
            cumulative_delay := satAdd s.cumulative_delay
              (expTmpCur s.current_delay s.max_delay s.factor s.min_delay)
            current_delay := some
              (expTmpCur s.current_delay s.max_delay s.factor s.min_delay) }) := by
  unfold ExponentialBackoff.next
  rw [if_neg ha]
  simp [htd, hj, hadd, hts]

theorem exp_nf_none_prop (s s' : ExponentialBackoff) (hj : s.jitter = false)
    (h : ExponentialBackoff.next s = .ok (none, s')) :
    s'.jitter = false ∧
    ∃ s'' : ExponentialBackoff, ExponentialBackoff.next s' = .ok (none, s'') := by
  by_cases ha : s.max_times.getD USIZE_MAX ≤ s.attempts
  · rw [exp_exhausted_step s ha] at h
    simp only [Except.ok.injEq, Prod.mk.injEq, true_and] at h
    cases h
    exact ⟨hj, s, exp_exhausted_step s ha⟩
  · cases htd : s.total_delay with
    | none =>
      obtain ⟨rfl, hex⟩ := exp_next_none_nt s s' htd h
      exact absurd hex ha
    | some t =>
      cases hadd : addChecked s.cumulative_delay
          (expTmpCur s.current_delay s.max_delay s.factor s.min_delay) with
      | none =>
        rw [exp_panic_step s hj t ha htd hadd] at h
        exact Except.noConfusion h
      | some sum =>
        by_cases hts : t < sum
        · rw [exp_budget_step s hj t sum ha htd hadd hts] at h
          simp only [Except.ok.injEq, Prod.mk.injEq, true_and] at h
          cases h
          refine ⟨hj, ?_⟩
          by_cases ha2 : ({ s with attempts := s.attempts + 1 } :
              ExponentialBackoff).max_times.getD USIZE_MAX ≤
              ({ s with attempts := s.attempts + 1 } : ExponentialBackoff).attempts
          · exact ⟨_, exp_exhausted_step _ ha2⟩
          · exact ⟨_, exp_budget_step _ hj t sum ha2 htd hadd hts⟩
        · rw [exp_yield_budget_step s hj t sum ha htd hadd hts] at h
          simp at h

/-! ## Step-computation lemmas for jitter-free states -/

theorem exp_yield_nt_step (s : ExponentialBackoff) (hj : s.jitter = false)
    (ha : ¬ s.max_times.getD USIZE_MAX ≤ s.attempts) (htd : s.total_delay = none) :
    ExponentialBackoff.next s =
      .ok (some (expTmpCur s.current_delay s.max_delay s.factor s.min_delay),
        { s with
            attempts := s.attempts + 1
            current_delay := some
              (expTmpCur s.current_delay s.max_delay s.factor s.min_delay) }) := by
  unfold ExponentialBackoff.next
  rw [if_neg ha]
  simp [htd, hj]

theorem const_yield_step_nomax (c : ConstantBackoff) (hmt : c.max_times = none)
    (hj : c.jitter = false) :
    ConstantBackoff.next c = .ok (some c.delay, c) := by
  obtain ⟨d, mt, att, j, rg⟩ := c
  simp only at hmt hj
  subst hmt
  subst hj
  unfold ConstantBackoff.next ConstantBackoff.delayDraw
  simp

theorem const_yield_step (c : ConstantBackoff) (m : Nat) (hmt : c.max_times = some m)
    (ha : ¬ m ≤ c.attempts) (hj : c.jitter = false) :
    ConstantBackoff.next c =
      .ok (some c.delay, { c with attempts := c.attempts + 1 }) := by
  unfold ConstantBackoff.next ConstantBackoff.delayDraw
  simp [hmt, hj, ha]

theorem fib_first_step (b : FibonacciBackoff) (hj : b.jitter = false)
    (ha : ¬ b.max_times.getD USIZE_MAX ≤ b.attempts) (hc : b.current_delay = none) :
    FibonacciBackoff.next b =
      .ok (some b.min_delay,
        { b with
            attempts := b.attempts + 1
            current_delay := some b.min_delay }) := by
  unfold FibonacciBackoff.next
  rw [if_neg ha]
  simp [hc, hj]

theorem fib_grow_step (b : FibonacciBackoff) (cur prev : Nat) (hj : b.jitter = false)
    (ha : ¬ b.max_times.getD USIZE_MAX ≤ b.attempts)
    (hc : b.current_delay = some cur) (hp : b.previous_delay = some prev)
    (hlt : cur < b.max_delay.getD DMAX) :
    FibonacciBackoff.next b =
      .ok (some (satAdd cur prev),
        { b with
            attempts := b.attempts + 1
            current_delay := some (satAdd cur prev)
            previous_delay := some cur }) := by
  unfold FibonacciBackoff.next
  rw [if_neg ha]
  simp [hc, hp, hlt, hj]

theorem fib_second_step (b : FibonacciBackoff) (cur : Nat) (hj : b.jitter = false)
    (ha : ¬ b.max_times.getD USIZE_MAX ≤ b.attempts)
    (hc : b.current_delay = some cur) (hp : b.previous_delay = none)
    (hlt : cur < b.max_delay.getD DMAX) :
    FibonacciBackoff.next b =
      .ok (some cur,
        { b with
            attempts := b.attempts + 1
            previous_delay := some cur }) := by
  unfold FibonacciBackoff.next
  rw [if_neg ha]
  simp [hc, hp, hlt, hj]

theorem fib_cap_step (b : FibonacciBackoff) (cur : Nat) (hj : b.jitter = false)
    (ha : ¬ b.max_times.getD USIZE_MAX ≤ b.attempts)
    (hc : b.current_delay = some cur)
    (hlt : ¬ cur < b.max_delay.getD DMAX) :
    FibonacciBackoff.next b =
      .ok (some cur, { b with attempts := b.attempts + 1 }) := by
  unfold FibonacciBackoff.next
  rw [if_neg ha]
  simp [hc, hlt, hj]

/-! ## The generator state is irrelevant while jitter is disabled -/

theorem exp_next_jf (s s' : ExponentialBackoff) (o : Option Nat)
    (hj : s.jitter = false) (h : ExponentialBackoff.next s = .ok (o, s')) :
    s'.jitter = false := by
  by_cases ha : s.max_times.getD USIZE_MAX ≤ s.attempts
  · rw [exp_exhausted_step s ha] at h
    simp only [Except.ok.injEq, Prod.mk.injEq] at h
    rw [← h.2]
    exact hj
  · cases htd : s.total_delay with
    | none =>
      rw [exp_yield_nt_step s hj ha htd] at h
      simp only [Except.ok.injEq, Prod.mk.injEq] at h
      rw [← h.2]
      exact hj
    | some t =>
      cases hadd : addChecked s.cumulative_delay
          (expTmpCur s.current_delay s.max_delay s.factor s.min_delay) with
      | none =>
        rw [exp_panic_step s hj t ha htd hadd] at h
        exact Except.noConfusion h
      | some sum =>
        by_cases hts : t < sum
        · rw [exp_budget_step s hj t sum ha htd hadd hts] at h
          simp only [Except.ok.injEq, Prod.mk.injEq] at h
          rw [← h.2]
          exact hj
        · rw [exp_yield_budget_step s hj t sum ha htd hadd hts] at h
          simp only [Except.ok.injEq, Prod.mk.injEq] at h
          rw [← h.2]
          exact hj

theorem exp_next_rng (s : ExponentialBackoff) (r : List F32)
    (hj : s.jitter = false) :
    ExponentialBackoff.next { s with rng := r } =
      (ExponentialBackoff.next s).map (fun p => (p.1, { p.2 with rng := r })) := by
  obtain ⟨j, rg, fa, mind, maxd, mt, td, cd, cum, att⟩ := s
  simp only at hj
  subst hj
  by_cases ha : Option.getD mt USIZE_MAX ≤ att
  · rw [exp_exhausted_step ⟨false, r, fa, mind, maxd, mt, td, cd, cum, att⟩ ha,
      exp_exhausted_step ⟨false, rg, fa, mind, maxd, mt, td, cd, cum, att⟩ ha]
    rfl
  · cases td with
    | none =>
      rw [exp_yield_nt_step ⟨false, r, fa, mind, maxd, mt, none, cd, cum, att⟩
          rfl ha rfl,
        exp_yield_nt_step ⟨false, rg, fa, mind, maxd, mt, none, cd, cum, att⟩
          rfl ha rfl]
      rfl
    | some t =>
      cases hadd : addChecked cum (expTmpCur cd maxd fa mind) with
      | none =>
        rw [exp_panic_step ⟨false, r, fa, mind, maxd, mt, some t, cd, cum, att⟩
            rfl t ha rfl hadd,
          exp_panic_step ⟨false, rg, fa, mind, maxd, mt, some t, cd, cum, att⟩
            rfl t ha rfl hadd]
        rfl
      | some sum =>
        by_cases hts : t < sum
        · rw [exp_budget_step ⟨false, r, fa, mind, maxd, mt, some t, cd, cum, att⟩
              rfl t sum ha rfl hadd hts,
            exp_budget_step ⟨false, rg, fa, mind, maxd, mt, some t, cd, cum, att⟩
              rfl t sum ha rfl hadd hts]
          rfl
        · rw [exp_yield_budget_step
              ⟨false, r, fa, mind, maxd, mt, some t, cd, cum, att⟩
              rfl t sum ha rfl hadd hts,
            exp_yield_budget_step
              ⟨false, rg, fa, mind, maxd, mt, some t, cd, cum, att⟩
              rfl t sum ha rfl hadd hts]
          rfl

theorem const_next_jf (c c' : ConstantBackoff) (o : Option Nat)
    (hj : c.jitter = false) (h : ConstantBackoff.next c = .ok (o, c')) :
    c'.jitter = false := by
  cases hmt : c.max_times with
  | none =>
    rw [const_yield_step_nomax c hmt hj] at h
    simp only [Except.ok.injEq, Prod.mk.injEq] at h
    rw [← h.2]
    exact hj
  | some m =>
    by_cases ha : m ≤ c.attempts
    · rw [const_exhausted_step c m hmt ha] at h
      simp only [Except.ok.injEq, Prod.mk.injEq] at h
      rw [← h.2]
      exact hj
    · rw [const_yield_step c m hmt ha hj] at h
      simp only [Except.ok.injEq, Prod.mk.injEq] at h
      rw [← h.2]
      exact hj

theorem const_next_rng (c : ConstantBackoff) (r : List F32)
    (hj : c.jitter = false) :
    ConstantBackoff.next { c with rng := r } =
      (ConstantBackoff.next c).map (fun p => (p.1, { p.2 with rng := r })) := by
  obtain ⟨d, mt, att, j, rg⟩ := c
  simp only at hj
  subst hj
  cases mt with
  | none =>
    rw [const_yield_step_nomax ⟨d, none, att, false, r⟩ rfl rfl,
      const_yield_step_nomax ⟨d, none, att, false, rg⟩ rfl rfl]
    rfl
  | some m =>
    by_cases ha : m ≤ att
    · rw [const_exhausted_step ⟨d, some m, att, false, r⟩ m rfl ha,
        const_exhausted_step ⟨d, some m, att, false, rg⟩ m rfl ha]
      rfl
    · rw [const_yield_step ⟨d, some m, att, false, r⟩ m rfl ha rfl,
        const_yield_step ⟨d, some m, att, false, rg⟩ m rfl ha rfl]
      rfl

theorem fib_next_jf (b b' : FibonacciBackoff) (o : Option Nat)
    (hj : b.jitter = false) (h : FibonacciBackoff.next b = .ok (o, b')) :
    b'.jitter = false := by
  by_cases ha : b.max_times.getD USIZE_MAX ≤ b.attempts
  · rw [fib_exhausted_step b ha] at h
    simp only [Except.ok.injEq, Prod.mk.injEq] at h
    rw [← h.2]
    exact hj
  · cases hc : b.current_delay with
    | none =>
      rw [fib_first_step b hj ha hc] at h
      simp only [Except.ok.injEq, Prod.mk.injEq] at h
      rw [← h.2]
      exact hj
    | some cur =>
      by_cases hlt : cur < b.max_delay.getD DMAX
      · cases hp : b.previous_delay with
        | some prev =>
          rw [fib_grow_step b cur prev hj ha hc hp hlt] at h
          simp only [Except.ok.injEq, Prod.mk.injEq] at h
          rw [← h.2]
          exact hj
        | none =>
          rw [fib_second_step b cur hj ha hc hp hlt] at h
          simp only [Except.ok.injEq, Prod.mk.injEq] at h
          rw [← h.2]
          exact hj
      · rw [fib_cap_step b cur hj ha hc hlt] at h
        simp only [Except.ok.injEq, Prod.mk.injEq] at h
        rw [← h.2]
        exact hj

theorem fib_next_rng (b : FibonacciBackoff) (r : List F32)
    (hj : b.jitter = false) :
    FibonacciBackoff.next { b with rng := r } =
      (FibonacciBackoff.next b).map (fun p => (p.1, { p.2 with rng := r })) := by
  obtain ⟨j, rg, mind, maxd, mt, pd, cd, att⟩ := b
  simp only at hj
  subst hj
  by_cases ha : Option.getD mt USIZE_MAX ≤ att
  · rw [fib_exhausted_step ⟨false, r, mind, maxd, mt, pd, cd, att⟩ ha,
      fib_exhausted_step ⟨false, rg, mind, maxd, mt, pd, cd, att⟩ ha]
    rfl
  · cases cd with
    | none =>
      rw [fib_first_step ⟨false, r, mind, maxd, mt, pd, none, att⟩ rfl ha rfl,
        fib_first_step ⟨false, rg, mind, maxd, mt, pd, none, att⟩ rfl ha rfl]
      rfl
    | some cur =>
      by_cases hlt : cur < Option.getD maxd DMAX
      · cases pd with
        | some prev =>
          rw [fib_grow_step ⟨false, r, mind, maxd, mt, some prev, some cur, att⟩
              cur prev rfl ha rfl rfl hlt,
            fib_grow_step ⟨false, rg, mind, maxd, mt, some prev, some cur, att⟩
              cur prev rfl ha rfl rfl hlt]
          rfl
        | none =>
          rw [fib_second_step ⟨false, r, mind, maxd, mt, none, some cur, att⟩
              cur rfl ha rfl rfl hlt,
            fib_second_step ⟨false, rg, mind, maxd, mt, none, some cur, att⟩
              cur rfl ha rfl rfl hlt]
          rfl
      · rw [fib_cap_step ⟨false, r, mind, maxd, mt, pd, some cur, att⟩
            cur rfl ha rfl hlt,
          fib_cap_step ⟨false, rg, mind, maxd, mt, pd, some cur, att⟩
            cur rfl ha rfl hlt]
        rfl

theorem runB_rng {σ : Type} (step : σ → Except Unit (Option Nat × σ))
    (J : σ → Prop) (upd : σ → List F32 → σ)
    (hstep : ∀ s r, J s → step (upd s r) = (step s).map (fun p => (p.1, upd p.2 r)))
    (hpres : ∀ s o s', J s → step s = .ok (o, s') → J s') :
    ∀ k s r, J s →
      runB step k (upd s r) = (runB step k s).map (fun p => (p.1, upd p.2 r)) := by
  intro k
  induction k with
  | zero => intro s r hJ; rfl
  | succ k ih =>
    intro s r hJ
    rw [runB, runB, hstep s r hJ]
    cases hs : step s with
    | error e => rfl
    | ok p =>
      obtain ⟨o, s1⟩ := p
      simp only [Except.map]
      rw [ih s1 r (hpres s o s1 hJ hs)]
      cases hr : runB step k s1 with
      | error e => rfl
      | ok q => rfl

/-! ## Claim theorems -/

/-- C6: an exponential sequence built with min_delay 1s, factor 2.0,
max_times 3 and no jitter (the `ExponentialBuilder::new` defaults) yields
exactly 1s, 2s, 4s and then exhausts: the fourth and every later advance
returns no value. -/
theorem c6_exponential_default_sequence (k : Nat) :
    runOuts ExponentialBackoff.next (3 + k) (ExponentialBuilder.new.build []) =
      some ([some (10 ^ 9), some (2 * 10 ^ 9), some (4 * 10 ^ 9)] ++
        List.replicate k none) := by
  have h3 : runB ExponentialBackoff.next 3 (ExponentialBuilder.new.build []) =
      .ok ([some (10 ^ 9), some (2 * 10 ^ 9), some (4 * 10 ^ 9)],
        { jitter := false, rng := [], factor := ⟨2, 1⟩, min_delay := 10 ^ 9,
          max_delay := some (60 * 10 ^ 9), max_times := some 3,
          total_delay := none, current_delay := some (4 * 10 ^ 9),
          cumulative_delay := 0, attempts := 3 }) := by decide
  have hfix := runB_fixed ExponentialBackoff.next
    { jitter := false, rng := [], factor := ⟨2, 1⟩, min_delay := 10 ^ 9,
      max_delay := some (60 * 10 ^ 9), max_times := some 3,
      total_delay := none, current_delay := some (4 * 10 ^ 9),
      cumulative_delay := 0, attempts := 3 } (by decide) k
  have hall := runB_split ExponentialBackoff.next 3 k _ _ _ _ _ h3 hfix
  simp [runOuts, hall]

/-- C1: with an operation failing on every attempt, an always-true retryable
predicate and a backoff yielding exactly the three delays `d0, d1, d2`, the
async retry driver invokes the operation exactly 4 times, invokes the notify
hook exactly 3 times — each notify strictly after the corresponding operation
invocation and strictly before the corresponding sleep — starts exactly 3
sleeps, and terminates with the error of the 4th attempt unwrapped. -/
theorem c1_retry_trace (E T : Type) (errs : Nat → E) (d0 d1 d2 : Nat) :
    retryPoll (T := T) (fun k => Except.error (errs k)) (fun _ => true) [d0, d1, d2] 0 =
      ([.opCall 0, .notifyCall 0 (errs 0) d0, .sleepCall 0 d0,
        .opCall 1, .notifyCall 1 (errs 1) d1, .sleepCall 1 d1,
        .opCall 2, .notifyCall 2 (errs 2) d2, .sleepCall 2 d2,
        .opCall 3], Except.error (errs 3), []) ∧
    countOp (retryPoll (T := T) (fun k => Except.error (errs k))
      (fun _ => true) [d0, d1, d2] 0).1 = 4 ∧
    countNotify (retryPoll (T := T) (fun k => Except.error (errs k))
      (fun _ => true) [d0, d1, d2] 0).1 = 3 ∧
    countSleep (retryPoll (T := T) (fun k => Except.error (errs k))
      (fun _ => true) [d0, d1, d2] 0).1 = 3 ∧
    ∀ j, j < 3 →
      ∃ a b c : Nat, a < b ∧ b < c ∧
        (retryPoll (T := T) (fun k => Except.error (errs k))
          (fun _ => true) [d0, d1, d2] 0).1.get? a = some (.opCall j) ∧
        (retryPoll (T := T) (fun k => Except.error (errs k))
          (fun _ => true) [d0, d1, d2] 0).1.get? b =
            some (.notifyCall j (errs j) ([d0, d1, d2].getD j 0)) ∧
        (retryPoll (T := T) (fun k => Except.error (errs k))
          (fun _ => true) [d0, d1, d2] 0).1.get? c =
            some (.sleepCall j ([d0, d1, d2].getD j 0)) := by
  refine ⟨rfl, rfl, rfl, rfl, ?_⟩
  intro j hj
  interval_cases j
  · exact ⟨0, 1, 2, by omega, by omega, rfl, rfl, rfl⟩
  · exact ⟨3, 4, 5, by omega, by omega, rfl, rfl, rfl⟩
  · exact ⟨6, 7, 8, by omega, by omega, rfl, rfl, rfl⟩

/-- C2: when an attempt fails with an error the retryable predicate rejects,
both the async driver (`Retry::poll`) and the blocking driver
(`BlockingRetry::call`) terminate immediately with exactly that error: one
operation invocation, no notify, no sleep, and the backoff sequence is
returned un-advanced. -/
theorem c2_not_retryable (E T : Type) (op : Nat → Except E T)
    (retryable : E → Bool) (delays : List Nat) (e : E)
    (hop : op 0 = .error e) (hret : retryable e = false) :
    retryPoll op retryable delays 0 = ([.opCall 0], .error e, delays) ∧
    blockingCall op retryable delays 0 = ([.opCall 0], .error e, delays) := by
  constructor
  · rw [retryPoll, hop]
    exact if_pos hret
  · rw [blockingCall, hop]
    exact if_pos hret

theorem c2_not_retryable_witness :
    retryPoll (fun _ => Except.error 7 : Nat → Except Nat PUnit)
      (fun _ => false) [5, 6] 0 = ([.opCall 0], .error 7, [5, 6]) ∧
    blockingCall (fun _ => Except.error 7 : Nat → Except Nat PUnit)
      (fun _ => false) [5, 6] 0 = ([.opCall 0], .error 7, [5, 6]) :=
  c2_not_retryable Nat PUnit (fun _ => Except.error 7) (fun _ => false)
    [5, 6] 7 rfl rfl

/-- C3, failing input: the exponential backoff's total-delay check
`self.cumulative_delay + tmp_cur <= total` uses the panicking `+` on
`Duration`.  With `min_delay = Duration::from_secs(u64::MAX)`, no maximum
delay, factor 2.0 and `total_delay = Some(Duration::MAX)`, the first advance
yields and accumulates `min_delay`, and the second advance saturates
`tmp_cur` to `Duration::MAX`, so `cumulative_delay + tmp_cur` overflows and
the advance panics instead of saturating. -/
theorem c3_failing_input :
    runB ExponentialBackoff.next 2
      ({ ExponentialBuilder.new with
          min_delay := (2 ^ 64 - 1) * 10 ^ 9
          max_delay := none
          total_delay := some DMAX }.build []) = .error () := by
  decide

/-- C4, counterexample: an exponential policy configured with
`max_times = 1` but also a zero total-delay budget yields no duration at all
on its first advance, not exactly 1 duration. -/
theorem c4_counterexample :
    runOuts ExponentialBackoff.next 1
      ({ ExponentialBuilder.new with
          max_times := some 1
          total_delay := some 0 }.build []) = some [none] := by
  decide

/-- C5, counterexample: with `min_delay = 10s` and `max_delay = 15s` the
un-jittered Fibonacci sequence yields 10s, 10s, 20s, 20s: the third yielded
delay, 20s, exceeds `max_delay = 15s` — the cap stops further growth but does
not clamp the yielded value. -/
theorem c5_counterexample :
    runOuts FibonacciBackoff.next 4
      ({ FibonacciBuilder.new with
          min_delay := 10 * 10 ^ 9
          max_delay := some (15 * 10 ^ 9)
          max_times := some 4 }.build []) =
      some [some (10 * 10 ^ 9), some (10 * 10 ^ 9),
        some (20 * 10 ^ 9), some (20 * 10 ^ 9)] ∧
    ¬ (20 * 10 ^ 9 ≤ 15 * 10 ^ 9) := by
  decide

/-- C9, counterexample: with `delay = 1ns`, jitter enabled and the f32 draw
`10066330 / 2^24 ≈ 0.60000038` (an exact `f32` value in `[0, 1)`), the
yielded value is `2ns = 2 × delay`, violating `v < 2 × delay`: the jitter
term `delay.mul_f32(u)` rounds up to a full nanosecond, i.e. to `delay`
itself. -/
theorem c9_counterexample :
    runOuts ConstantBackoff.next 1
      ({ ConstantBuilder.new with
          delay := 1
          jitter := true }.build [⟨10066330, 2 ^ 24⟩]) = some [some 2] ∧
    F32unit ⟨10066330, 2 ^ 24⟩ ∧ ¬ ((2 : Nat) < 2 * 1) := by
  decide

/-- C10, counterexample: an exponential sequence with jitter and a total-delay
budget is not fused: with `total_delay = 1s`, `min_delay = 1s` and jitter
draws `1/2` then `0`, the first advance returns no value (the jittered 1.5s
would exceed the budget) but the second advance yields 1s again. -/
theorem c10_counterexample :
    runOuts ExponentialBackoff.next 2
      ({ ExponentialBuilder.new with
          jitter := true
          total_delay := some (10 ^ 9)
          max_times := some 5 }.build [⟨1, 2⟩, ⟨0, 1⟩]) =
      some [none, some (10 ^ 9)] := by
  decide

/-- C7, counterexample: (a) with `min_delay = 1ns` and the f32 draw
`10066330 / 2^24`, the jittered exponential sequence yields `2ns` while the
jitter-free run yields `1ns` — the random extra equals the pre-jitter value,
so it does not lie in `[0, pre-jitter)`; (b) with a total-delay budget of 1s,
after one advance the jittered run's recorded `current_delay` is still unset
while the jitter-free run records 1s — the recorded delay is not independent
of the jitter draws once a budget is configured. -/
theorem c7_counterexample :
    runOuts ExponentialBackoff.next 1
      ({ ExponentialBuilder.new with
          min_delay := 1
          jitter := true }.build [⟨10066330, 2 ^ 24⟩]) = some [some 2] ∧
    runOuts ExponentialBackoff.next 1
      ({ ExponentialBuilder.new with min_delay := 1 }.build []) = some [some 1] ∧
    runCur 1 ({ ExponentialBuilder.new with
          jitter := true
          total_delay := some (10 ^ 9) }.build [⟨1, 2⟩]) = some none ∧
    runCur 1 ({ ExponentialBuilder.new with
          total_delay := some (10 ^ 9) }.build []) = some (some (10 ^ 9)) := by
  decide

/-- C4 (amended): for every policy configured with `max_times = n` — any
delays, bounds, jitter setting and random draws — the built sequence yields a
duration on exactly the first `n` advances and returns no value from advance
`n+1` on, provided no advance panics (cf. C3) and, for the exponential
strategy, no total-delay budget is configured (a budget exhausts the sequence
early, see `c4_counterexample`).  In particular with `max_times = 0` nothing
is yielded. -/
theorem c4_max_times_exactly_n (n k : Nat) :
    (∀ (b : ConstantBuilder) (e : List F32) (outs : List (Option Nat))
        (s' : ConstantBackoff),
      b.max_times = some n →
      runB ConstantBackoff.next k (b.build e) = .ok (outs, s') →
      outs.length = k ∧
      ∀ i, i < outs.length → (outs.getD i none).isSome = decide (i < n)) ∧
    (∀ (b : ExponentialBuilder) (e : List F32) (outs : List (Option Nat))
        (s' : ExponentialBackoff),
      b.max_times = some n → b.total_delay = none →
      runB ExponentialBackoff.next k (b.build e) = .ok (outs, s') →
      outs.length = k ∧
      ∀ i, i < outs.length → (outs.getD i none).isSome = decide (i < n)) ∧
    (∀ (b : FibonacciBuilder) (e : List F32) (outs : List (Option Nat))
        (s' : FibonacciBackoff),
      b.max_times = some n →
      runB FibonacciBackoff.next k (b.build e) = .ok (outs, s') →
      outs.length = k ∧
      ∀ i, i < outs.length → (outs.getD i none).isSome = decide (i < n)) := by
  refine ⟨?_, ?_, ?_⟩
  · intro b e outs s' hmt h
    have hc := runB_count ConstantBackoff.next (fun c => c.attempts) n
      (fun c => c.max_times = some n)
      (fun s o s2 hP hs => const_next_spec n s o s2 hP hs)
      k (b.build e) outs s' (by simpa [ConstantBuilder.build] using hmt) h
    simpa [ConstantBuilder.build] using hc
  · intro b e outs s' hmt htd h
    have hc := runB_count ExponentialBackoff.next (fun c => c.attempts) n
      (fun c => c.max_times = some n ∧ c.total_delay = none)
      (fun s o s2 hP hs => exp_next_spec n s o s2 hP.1 hP.2 hs)
      k (b.build e) outs s'
      (by simp [ExponentialBuilder.build, hmt, htd]) h
    simpa [ExponentialBuilder.build] using hc
  · intro b e outs s' hmt h
    have hc := runB_count FibonacciBackoff.next (fun c => c.attempts) n
      (fun c => c.max_times = some n)
      (fun s o s2 hP hs => fib_next_spec n s o s2 hP hs)
      k (b.build e) outs s' (by simpa [FibonacciBuilder.build] using hmt) h
    simpa [FibonacciBuilder.build] using hc

theorem c4_max_times_exactly_n_witness :
    ([some (10 ^ 9), some (10 ^ 9), some (10 ^ 9), none] : List (Option Nat)).length = 4 :=
  ((c4_max_times_exactly_n 3 4).1 ConstantBuilder.new []
    [some (10 ^ 9), some (10 ^ 9), some (10 ^ 9), none]
    { delay := 10 ^ 9, max_times := some 3, attempts := 3, jitter := false,
      rng := [] }
    rfl (by decide)).1

/-- C10 (amended): exhaustion is permanent for constant and Fibonacci
sequences, and for exponential sequences that have no total-delay budget or
have jitter disabled: once an advance returns no value, every subsequent
advance also returns no value, for every number of further calls and every
sequence of random draws.  The one exception, forced by
`c10_counterexample`, is an exponential sequence with both jitter and a
total-delay budget, where a smaller later draw can fit the budget again. -/
theorem c10_exhaustion_permanent :
    (∀ (c c' : ConstantBackoff), ConstantBackoff.next c = .ok (none, c') →
      ∀ k, runOuts ConstantBackoff.next k c' = some (List.replicate k none)) ∧
    (∀ (b b' : FibonacciBackoff), FibonacciBackoff.next b = .ok (none, b') →
      ∀ k, runOuts FibonacciBackoff.next k b' = some (List.replicate k none)) ∧
    (∀ (s s' : ExponentialBackoff), s.total_delay = none →
      ExponentialBackoff.next s = .ok (none, s') →
      ∀ k, runOuts ExponentialBackoff.next k s' = some (List.replicate k none)) ∧
    (∀ (s s' : ExponentialBackoff), s.jitter = false →
      ExponentialBackoff.next s = .ok (none, s') →
      ∀ k, runOuts ExponentialBackoff.next k s' = some (List.replicate k none)) := by
  refine ⟨?_, ?_, ?_, ?_⟩
  · intro c c' h k
    obtain ⟨rfl, m, hmt, hle⟩ := const_next_none c c' h
    obtain ⟨sf, hsf⟩ := runB_perm ConstantBackoff.next
      (fun x => ∃ m2, x.max_times = some m2 ∧ m2 ≤ x.attempts)
      (fun x hx => by
        obtain ⟨m2, h1, h2⟩ := hx
        exact ⟨x, const_exhausted_step x m2 h1 h2, m2, h1, h2⟩)
      k c' ⟨m, hmt, hle⟩
    simp [runOuts, hsf]
  · intro b b' h k
    obtain ⟨rfl, hle⟩ := fib_next_none b b' h
    obtain ⟨sf, hsf⟩ := runB_perm FibonacciBackoff.next
      (fun x => x.max_times.getD USIZE_MAX ≤ x.attempts)
      (fun x hx => ⟨x, fib_exhausted_step x hx, hx⟩)
      k b' hle
    simp [runOuts, hsf]
  · intro s s' htd h k
    obtain ⟨rfl, hle⟩ := exp_next_none_nt s s' htd h
    obtain ⟨sf, hsf⟩ := runB_perm ExponentialBackoff.next
      (fun x => x.max_times.getD USIZE_MAX ≤ x.attempts)
      (fun x hx => ⟨x, exp_exhausted_step x hx, hx⟩)
      k s' hle
    simp [runOuts, hsf]
  · intro s s' hj h k
    obtain ⟨hj', s'', h''⟩ := exp_nf_none_prop s s' hj h
    obtain ⟨sf, hsf⟩ := runB_perm ExponentialBackoff.next
      (fun x => x.jitter = false ∧ ∃ y, ExponentialBackoff.next x = .ok (none, y))
      (fun x hx => by
        obtain ⟨hjx, y, hy⟩ := hx
        obtain ⟨hjy, z, hz⟩ := exp_nf_none_prop x y hjx hy
        exact ⟨y, hy, hjy, z, hz⟩)
      k s' ⟨hj', s'', h''⟩
    simp [runOuts, hsf]

theorem c10_exhaustion_permanent_witness :
    runOuts ConstantBackoff.next 2
      { delay := 10 ^ 9, max_times := some 3, attempts := 3, jitter := false,
        rng := ([] : List F32) } = some (List.replicate 2 none) :=
  c10_exhaustion_permanent.1
    { delay := 10 ^ 9, max_times := some 3, attempts := 3, jitter := false, rng := [] }
    { delay := 10 ^ 9, max_times := some 3, attempts := 3, jitter := false, rng := [] }
    (by decide) 2

/-- C8: a policy with jitter disabled is deterministic: whatever entropy the
two generators are seeded with, two sequences built from the same policy
value produce identical results on every advance, driven any number of
steps.  (Building is a pure function of the policy in this model, so the
policy value itself is never mutated and may seed any number of loops.) -/
theorem c8_jitter_free_deterministic :
    (∀ (b : ExponentialBuilder) (e1 e2 : List F32) (k : Nat), b.jitter = false →
      runOuts ExponentialBackoff.next k (b.build e1) =
        runOuts ExponentialBackoff.next k (b.build e2)) ∧
    (∀ (b : FibonacciBuilder) (e1 e2 : List F32) (k : Nat), b.jitter = false →
      runOuts FibonacciBackoff.next k (b.build e1) =
        runOuts FibonacciBackoff.next k (b.build e2)) ∧
    (∀ (b : ConstantBuilder) (e1 e2 : List F32) (k : Nat), b.jitter = false →
      runOuts ConstantBackoff.next k (b.build e1) =
        runOuts ConstantBackoff.next k (b.build e2)) := by
  refine ⟨?_, ?_, ?_⟩
  · intro b e1 e2 k hj
    have h1 : b.build e1 = { b.build e2 with rng := e1 } := rfl
    have hm := runB_rng ExponentialBackoff.next (fun s => s.jitter = false)
      (fun s r => { s with rng := r })
      (fun s r hJ => exp_next_rng s r hJ)
      (fun s o s' hJ hs => exp_next_jf s s' o hJ hs)
      k (b.build e2) e1 hj
    unfold runOuts
    rw [h1, hm]
    cases runB ExponentialBackoff.next k (b.build e2) with
    | error e => rfl
    | ok p => rfl
  · intro b e1 e2 k hj
    have h1 : b.build e1 = { b.build e2 with rng := e1 } := rfl
    have hm := runB_rng FibonacciBackoff.next (fun s => s.jitter = false)
      (fun s r => { s with rng := r })
      (fun s r hJ => fib_next_rng s r hJ)
      (fun s o s' hJ hs => fib_next_jf s s' o hJ hs)
      k (b.build e2) e1 hj
    unfold runOuts
    rw [h1, hm]
    cases runB FibonacciBackoff.next k (b.build e2) with
    | error e => rfl
    | ok p => rfl
  · intro b e1 e2 k hj
    have h1 : b.build e1 = { b.build e2 with rng := e1 } := rfl
    have hm := runB_rng ConstantBackoff.next (fun s => s.jitter = false)
      (fun s r => { s with rng := r })
      (fun s r hJ => const_next_rng s r hJ)
      (fun s o s' hJ hs => const_next_jf s s' o hJ hs)
      k (b.build e2) e1 hj
    unfold runOuts
    rw [h1, hm]
    cases runB ConstantBackoff.next k (b.build e2) with
    | error e => rfl
    | ok p => rfl

theorem c8_jitter_free_deterministic_witness :
    runOuts ExponentialBackoff.next 4
      (ExponentialBuilder.new.build [⟨1, 2⟩, ⟨1, 4⟩]) =
    runOuts ExponentialBackoff.next 4
      (ExponentialBuilder.new.build [⟨7, 8⟩]) :=
  c8_jitter_free_deterministic.1 ExponentialBuilder.new
    [⟨1, 2⟩, ⟨1, 4⟩] [⟨7, 8⟩] 4 rfl

/-! ## Jitter arithmetic bounds -/

theorem addChecked_some (a b w : Nat) (h : addChecked a b = some w) :
    w = a + b ∧ a + b ≤ DMAX := by
  unfold addChecked at h
  split at h
  · exact ⟨(Option.some.inj h).symm, by assumption⟩
  · exact Option.noConfusion h

theorem mulF32_le (d : Nat) (u : F32) (hu : F32unit u) : mulF32 d u ≤ d := by
  obtain ⟨hden, hnum, hbound⟩ := hu
  have e24 : (2 : Nat) ^ 24 = 16777216 := by norm_num
  rw [e24] at hbound
  have hn : u.num.toNat < u.den := by omega
  unfold mulF32
  have hlt : (2 * u.num.toNat * d + u.den) / (2 * u.den) < d + 1 := by
    rw [Nat.div_lt_iff_lt_mul (by omega)]
    calc 2 * u.num.toNat * d + u.den
        < 2 * u.num.toNat * d + 2 * u.den := by omega
      _ ≤ 2 * u.den * d + 2 * u.den := by
          have h1 : 2 * u.num.toNat ≤ 2 * u.den := by omega
          exact Nat.add_le_add_right (Nat.mul_le_mul_right d h1) _
      _ = (d + 1) * (2 * u.den) := by ring
  omega

theorem mulF32_lt_one_sec (u : F32) (hu : F32unit u) :
    mulF32 (10 ^ 9) u < 10 ^ 9 := by
  obtain ⟨hden, hnum, hbound⟩ := hu
  have e24 : (2 : Nat) ^ 24 = 16777216 := by norm_num
  rw [e24] at hbound
  unfold mulF32
  rw [Nat.div_lt_iff_lt_mul (by omega)]
  have key : (2 * u.num.toNat * 10 ^ 9 + u.den) * 16777216 <
      (10 ^ 9 * (2 * u.den)) * 16777216 := by nlinarith [hbound, hden]
  exact lt_of_mul_lt_mul_right key (by norm_num)

/-- C9 (amended): for a constant sequence with jitter enabled and configured
delay `d`, every yielded value `v` equals `d + d.mul_f32(u)` for the drawn
`u ∈ [0, 1)` and satisfies `d ≤ v ≤ 2 d`; the upper bound is not always
strict because the jitter product is rounded to whole nanoseconds (see
`c9_counterexample`), but at `d = 1s` the rounding slack is smaller than one
nanosecond per 2⁻²⁴ step, so `v < 2s` holds. -/
theorem c9_constant_jitter_range (c : ConstantBackoff) (u : F32) (r : List F32)
    (v : Nat) (c' : ConstantBackoff)
    (hj : c.jitter = true) (hrng : c.rng = u :: r) (hu : F32unit u)
    (h : ConstantBackoff.next c = .ok (some v, c')) :
    v = c.delay + mulF32 c.delay u ∧
    c.delay ≤ v ∧ v ≤ 2 * c.delay ∧
    (c.delay = 10 ^ 9 → v < 2 * 10 ^ 9) := by
  unfold ConstantBackoff.next ConstantBackoff.delayDraw at h
  simp only [hj, hrng, drawF, if_true] at h
  have main : v = c.delay + mulF32 c.delay u := by
    cases hmt : c.max_times with
    | none =>
      simp only [hmt] at h
      cases hadd : addChecked c.delay (mulF32 c.delay u) with
      | none => simp [hadd] at h
      | some w =>
        simp only [hadd, Except.ok.injEq, Prod.mk.injEq, Option.some.injEq] at h
        rw [← h.1]
        exact (addChecked_some _ _ _ hadd).1
    | some m =>
      simp only [hmt] at h
      by_cases ha : m ≤ c.attempts
      · rw [if_pos ha] at h
        simp at h
      · rw [if_neg ha] at h
        cases hadd : addChecked c.delay (mulF32 c.delay u) with
        | none => simp [hadd] at h
        | some w =>
          simp only [hadd, Except.ok.injEq, Prod.mk.injEq, Option.some.injEq] at h
          rw [← h.1]
          exact (addChecked_some _ _ _ hadd).1
  have hle := mulF32_le c.delay u hu
  refine ⟨main, by omega, by omega, ?_⟩
  intro hd
  have := mulF32_lt_one_sec u hu
  rw [hd] at main hle
  omega

theorem c9_constant_jitter_range_witness :
    (10 : Nat) ^ 9 ≤ 1500000000 ∧ (1500000000 : Nat) ≤ 2 * 10 ^ 9 :=
  ⟨(c9_constant_jitter_range
      { delay := 10 ^ 9, max_times := some 3, attempts := 0, jitter := true,
        rng := [⟨1, 2⟩] } ⟨1, 2⟩ [] 1500000000
      { delay := 10 ^ 9, max_times := some 3, attempts := 1, jitter := true,
        rng := [] } rfl rfl (by decide) (by decide)).2.1,
   (c9_constant_jitter_range
      { delay := 10 ^ 9, max_times := some 3, attempts := 0, jitter := true,
        rng := [⟨1, 2⟩] } ⟨1, 2⟩ [] 1500000000
      { delay := 10 ^ 9, max_times := some 3, attempts := 1, jitter := true,
        rng := [] } rfl rfl (by decide) (by decide)).2.2.1⟩

/-! ## The Fibonacci recurrence -/

theorem not_usize_le (i : Nat) (h : i < USIZE_MAX) :
    ¬ (Option.getD (none : Option Nat) USIZE_MAX ≤ i) := by
  simpa using Nat.not_le.2 h

theorem fib_base (mind : Nat) (maxd : Option Nat) :
    fibOut mind maxd 0 = mind ∧ FibInv mind maxd 0 (fibState mind maxd 1) := by
  have h0 : FibonacciBackoff.next (fibState mind maxd 0) =
      .ok (some mind, ⟨false, [], mind, maxd, none, none, some mind, 1⟩) := by
    have he : fibState mind maxd 0 =
        (⟨false, [], mind, maxd, none, none, none, 0⟩ : FibonacciBackoff) := rfl
    rw [he]
    exact fib_first_step ⟨false, [], mind, maxd, none, none, none, 0⟩ rfl
      (not_usize_le 0 (by decide)) rfl
  have hout : fibOut mind maxd 0 = mind := by
    unfold fibOut
    rw [h0]
  have hs1 : fibState mind maxd 1 =
      ⟨false, [], mind, maxd, none, none, some mind, 1⟩ := by
    show (match FibonacciBackoff.next (fibState mind maxd 0) with
      | .ok (_, s') => s'
      | .error _ => fibState mind maxd 0) = _
    rw [h0]
  refine ⟨hout, ?_⟩
  rw [hs1]
  exact ⟨rfl, rfl, rfl, rfl, rfl, by rw [hout], fun _ => rfl⟩

theorem fib_inv_step (mind : Nat) (maxd : Option Nat) (i : Nat)
    (hi : i + 1 < USIZE_MAX)
    (hInv : FibInv mind maxd i (fibState mind maxd (i + 1))) :
    fibOut mind maxd (i + 1) =
      (if fibOut mind maxd i < maxd.getD DMAX
       then (if i = 0 then fibOut mind maxd i
             else satAdd (fibOut mind maxd i) (fibOut mind maxd (i - 1)))
       else fibOut mind maxd i) ∧
    FibInv mind maxd (i + 1) (fibState mind maxd (i + 2)) := by
  obtain ⟨hj, hmind, hmaxd, hmt, hatt, hcur, hprev⟩ := hInv
  have hne : ¬ (fibState mind maxd (i + 1)).max_times.getD USIZE_MAX ≤
      (fibState mind maxd (i + 1)).attempts := by
    rw [hmt, hatt]
    exact not_usize_le (i + 1) hi
  by_cases hlt : fibOut mind maxd i < maxd.getD DMAX
  · have hlt2 : fibOut mind maxd i <
        (fibState mind maxd (i + 1)).max_delay.getD DMAX := by
      rw [hmaxd]; exact hlt
    by_cases hi0 : i = 0
    · have hp : (fibState mind maxd (i + 1)).previous_delay = none := by
        rw [hprev hlt, if_pos hi0]
      have hstep := fib_second_step (fibState mind maxd (i + 1))
        (fibOut mind maxd i) hj hne hcur hp hlt2
      have hout : fibOut mind maxd (i + 1) = fibOut mind maxd i := by
        conv_lhs => rw [fibOut]
        rw [hstep]
      have hs2 : fibState mind maxd (i + 2) =
          { fibState mind maxd (i + 1) with
              attempts := (fibState mind maxd (i + 1)).attempts + 1
              previous_delay := some (fibOut mind maxd i) } := by
        show (match FibonacciBackoff.next (fibState mind maxd (i + 1)) with
          | .ok (_, s') => s'
          | .error _ => fibState mind maxd (i + 1)) = _
        rw [hstep]
      refine ⟨by rw [hout, if_pos hlt, if_pos hi0], ?_⟩
      rw [hs2]
      refine ⟨hj, hmind, hmaxd, hmt, by simp [hatt], ?_, ?_⟩
      · show (fibState mind maxd (i + 1)).current_delay =
          some (fibOut mind maxd (i + 1))
        rw [hcur, hout]
      · intro _
        simp only [Nat.add_sub_cancel]
        rw [if_neg (by omega : ¬ i + 1 = 0)]
    · have hp : (fibState mind maxd (i + 1)).previous_delay =
          some (fibOut mind maxd (i - 1)) := by
        rw [hprev hlt, if_neg hi0]
      have hstep := fib_grow_step (fibState mind maxd (i + 1))
        (fibOut mind maxd i) (fibOut mind maxd (i - 1)) hj hne hcur hp hlt2
      have hout : fibOut mind maxd (i + 1) =
          satAdd (fibOut mind maxd i) (fibOut mind maxd (i - 1)) := by
        conv_lhs => rw [fibOut]
        rw [hstep]
      have hs2 : fibState mind maxd (i + 2) =
          { fibState mind maxd (i + 1) with
              attempts := (fibState mind maxd (i + 1)).attempts + 1
              current_delay := some (satAdd (fibOut mind maxd i)
                (fibOut mind maxd (i - 1)))
              previous_delay := some (fibOut mind maxd i) } := by
        show (match FibonacciBackoff.next (fibState mind maxd (i + 1)) with
          | .ok (_, s') => s'
          | .error _ => fibState mind maxd (i + 1)) = _
        rw [hstep]
      refine ⟨by rw [hout, if_pos hlt, if_neg hi0], ?_⟩
      rw [hs2]
      refine ⟨hj, hmind, hmaxd, hmt, by simp [hatt], by rw [hout], ?_⟩
      intro _
      simp only [Nat.add_sub_cancel]
      rw [if_neg (by omega : ¬ i + 1 = 0)]
  · have hlt2 : ¬ fibOut mind maxd i <
        (fibState mind maxd (i + 1)).max_delay.getD DMAX := by
      rw [hmaxd]; exact hlt
    have hstep := fib_cap_step (fibState mind maxd (i + 1))
      (fibOut mind maxd i) hj hne hcur hlt2
    have hout : fibOut mind maxd (i + 1) = fibOut mind maxd i := by
      conv_lhs => rw [fibOut]
      rw [hstep]
    have hs2 : fibState mind maxd (i + 2) =
        { fibState mind maxd (i + 1) with
            attempts := (fibState mind maxd (i + 1)).attempts + 1 } := by
      show (match FibonacciBackoff.next (fibState mind maxd (i + 1)) with
        | .ok (_, s') => s'
        | .error _ => fibState mind maxd (i + 1)) = _
      rw [hstep]
    refine ⟨by rw [hout, if_neg hlt], ?_⟩
    rw [hs2]
    refine ⟨hj, hmind, hmaxd, hmt, by simp [hatt], ?_, ?_⟩
    · show (fibState mind maxd (i + 1)).current_delay =
        some (fibOut mind maxd (i + 1))
      rw [hcur, hout]
    · intro hcontra
      rw [hout] at hcontra
      exact absurd hcontra hlt

theorem fib_unbounded_inv (mind : Nat) (maxd : Option Nat) :
    ∀ j, j < USIZE_MAX → FibInv mind maxd j (fibState mind maxd (j + 1)) := by
  intro j
  induction j with
  | zero => intro _; exact (fib_base mind maxd).2
  | succ j ih =>
    intro hj
    exact (fib_inv_step mind maxd j hj (ih (by omega))).2

/-- C5 (amended): the jitter-free Fibonacci sequence yields `min_delay` on
its first and second advances, and from the third advance onward each
yielded delay is the saturating sum of the two preceding yielded delays —
while the last yielded delay is still strictly below `max_delay`; once it
reaches or exceeds `max_delay`, growth stops and the last value repeats.
The yielded value is not clamped to `max_delay`, so a single overshoot can
exceed it (see `c5_counterexample`).  In particular with `min_delay = 1s`,
`max_times = 6` and no jitter the sequence yields 1s, 1s, 2s, 3s, 5s, 8s and
then exhausts. -/
theorem c5_fibonacci_recurrence :
    runOuts FibonacciBackoff.next 7
      ({ FibonacciBuilder.new with max_times := some 6 }.build []) =
      some [some (10 ^ 9), some (10 ^ 9), some (2 * 10 ^ 9), some (3 * 10 ^ 9),
        some (5 * 10 ^ 9), some (8 * 10 ^ 9), none] ∧
    ∀ (mind : Nat) (maxd : Option Nat) (k : Nat), k + 2 < USIZE_MAX →
      fibOut mind maxd 0 = mind ∧
      fibOut mind maxd 1 = mind ∧
      fibOut mind maxd (k + 2) =
        (if fibOut mind maxd (k + 1) < maxd.getD DMAX
         then satAdd (fibOut mind maxd (k + 1)) (fibOut mind maxd k)
         else fibOut mind maxd (k + 1)) := by
  constructor
  · decide
  · intro mind maxd k hk
    have h0 := (fib_base mind maxd).1
    have h1 : fibOut mind maxd 1 = mind := by
      have := (fib_inv_step mind maxd 0 (by omega) (fib_base mind maxd).2).1
      rw [h0] at this
      rw [this]
      split <;> rfl
    refine ⟨h0, h1, ?_⟩
    have hInv := fib_unbounded_inv mind maxd (k + 1) (by omega)
    have := (fib_inv_step mind maxd (k + 1) (by omega) hInv).1
    rw [this, if_neg (by omega : ¬ k + 1 = 0)]
    simp only [Nat.add_sub_cancel]

theorem c5_fibonacci_recurrence_witness :
    fibOut (10 ^ 9) (some (60 * 10 ^ 9)) 0 = 10 ^ 9 ∧
    fibOut (10 ^ 9) (some (60 * 10 ^ 9)) 1 = 10 ^ 9 :=
  ⟨(c5_fibonacci_recurrence.2 (10 ^ 9) (some (60 * 10 ^ 9)) 0 (by decide)).1,
   (c5_fibonacci_recurrence.2 (10 ^ 9) (some (60 * 10 ^ 9)) 0 (by decide)).2.1⟩

/-! ## Jitter does not compound: pairing a jittered run with its jitter-free
base run -/

theorem exp_yield_nt_jstep (s : ExponentialBackoff) (hj : s.jitter = true)
    (ha : ¬ s.max_times.getD USIZE_MAX ≤ s.attempts) (htd : s.total_delay = none) :
    ExponentialBackoff.next s =
      .ok (some (satAdd (expTmpCur s.current_delay s.max_delay s.factor s.min_delay)
          (mulF32 (expTmpCur s.current_delay s.max_delay s.factor s.min_delay)
            (drawF s.rng).1)),
        { s with
            attempts := s.attempts + 1
            rng := (drawF s.rng).2
            current_delay := some
              (expTmpCur s.current_delay s.max_delay s.factor s.min_delay) }) := by
  unfold ExponentialBackoff.next
  rw [if_neg ha]
  simp [htd, hj]

theorem drawF_drop (us : List F32) :
    ∀ i, drawF (List.drop i us) = (nthDraw us i, List.drop (i + 1) us) := by
  induction us with
  | nil => intro i; cases i <;> simp [drawF, nthDraw]
  | cons u r ih =>
    intro i
    cases i with
    | zero => simp [drawF, nthDraw]
    | succ i => simpa [nthDraw] using ih i

theorem exp_jitter_pair (us : List F32) :
    ∀ (k : Nat) (i : Nat) (sU : ExponentialBackoff) (R : List F32),
      sU.jitter = false → sU.total_delay = none →
      (R = us.drop i ∨ ExponentialBackoff.next sU = .ok (none, sU)) →
      ∃ outsJ sJ outsU sU',
        runB ExponentialBackoff.next k { sU with jitter := true, rng := R } =
          .ok (outsJ, sJ) ∧
        runB ExponentialBackoff.next k sU = .ok (outsU, sU') ∧
        sJ.current_delay = sU'.current_delay ∧
        outsJ.length = k ∧ outsU.length = k ∧
        ∀ m, m < k →
          outsJ.getD m none = (outsU.getD m none).map
            (fun base => satAdd base (mulF32 base (nthDraw us (i + m)))) := by
  intro k
  induction k with
  | zero =>
    intro i sU R hjU htdU hR
    exact ⟨[], { sU with jitter := true, rng := R }, [], sU, rfl, rfl, rfl, rfl,
      rfl, fun m hm => absurd hm (Nat.not_lt_zero m)⟩
  | succ k ih =>
    intro i sU R hjU htdU hR
    by_cases ha : sU.max_times.getD USIZE_MAX ≤ sU.attempts
    · have hU := exp_exhausted_step sU ha
      have hJ := exp_exhausted_step { sU with jitter := true, rng := R } ha
      obtain ⟨outsJ, sJ, outsU, sU', h1, h2, h3, h4, h5, h6⟩ :=
        ih (i + 1) sU R hjU htdU (Or.inr hU)
      refine ⟨none :: outsJ, sJ, none :: outsU, sU', ?_, ?_, h3,
        by simp [h4], by simp [h5], ?_⟩
      · rw [runB]
        simp [hJ, h1]
      · rw [runB]
        simp [hU, h2]
      · intro m hm
        cases m with
        | zero => simp
        | succ m =>
          simp only [List.getD_cons_succ]
          rw [h6 m (by omega)]
          have he : i + 1 + m = i + (m + 1) := by omega
          rw [he]
    · have hR2 : R = us.drop i := by
        cases hR with
        | inl h => exact h
        | inr h =>
          rw [exp_yield_nt_step sU hjU ha htdU] at h
          simp at h
      subst hR2
      have hU := exp_yield_nt_step sU hjU ha htdU
      obtain ⟨outsJ, sJ, outsU, sU', h1, h2, h3, h4, h5, h6⟩ :=
        ih (i + 1)
          { sU with
              attempts := sU.attempts + 1
              current_delay := some
                (expTmpCur sU.current_delay sU.max_delay sU.factor sU.min_delay) }
          (us.drop (i + 1)) hjU htdU (Or.inl rfl)
      refine ⟨some (satAdd
          (expTmpCur sU.current_delay sU.max_delay sU.factor sU.min_delay)
          (mulF32 (expTmpCur sU.current_delay sU.max_delay sU.factor sU.min_delay)
            (nthDraw us i))) :: outsJ, sJ,
        some (expTmpCur sU.current_delay sU.max_delay sU.factor sU.min_delay)
          :: outsU, sU', ?_, ?_, h3, by simp [h4], by simp [h5], ?_⟩
      · rw [runB]
        rw [exp_yield_nt_jstep { sU with jitter := true, rng := us.drop i }
          rfl ha htdU]
        simp only [drawF_drop]
        simp [h1]
      · rw [runB]
        simp [hU, h2]
      · intro m hm
        cases m with
        | zero => simp
        | succ m =>
          simp only [List.getD_cons_succ]
          rw [h6 m (by omega)]
          have he : i + 1 + m = i + (m + 1) := by omega
          rw [he]

/-- C7 (amended): for exponential sequences with jitter and no total-delay
budget, jitter never compounds: for every draw stream the jittered run and
the jitter-free run of the same policy record the same `current_delay` after
any number of advances, and the `m`-th yielded value is the jitter-free base
value plus the rounded extra `mul_f32(base, uₘ)` — which lies in `[0, base]`
for any f32 draw in `[0, 1)`; nanosecond rounding can make the extra equal
`base` (see `c7_counterexample`), and with a total-delay budget the recorded
delay can depend on the draws (same counterexample). -/
theorem c7_jitter_not_compounding :
    (∀ (b : ExponentialBuilder) (us : List F32) (k : Nat),
      b.jitter = true → b.total_delay = none →
      ∃ outsJ sJ outsU sU',
        runB ExponentialBackoff.next k (b.build us) = .ok (outsJ, sJ) ∧
        runB ExponentialBackoff.next k ({ b with jitter := false }.build []) =
          .ok (outsU, sU') ∧
        sJ.current_delay = sU'.current_delay ∧
        outsJ.length = k ∧ outsU.length = k ∧
        (∀ m, m < k →
          outsJ.getD m none = (outsU.getD m none).map
            (fun base => satAdd base (mulF32 base (nthDraw us m))))) ∧
    (∀ (d : Nat) (u : F32), F32unit u → mulF32 d u ≤ d) := by
  constructor
  · intro b us k hj htd
    have hb : b.build us =
        { ({ b with jitter := false } : ExponentialBuilder).build [] with
            jitter := true, rng := us } := by
      simp [ExponentialBuilder.build, hj]
    obtain ⟨outsJ, sJ, outsU, sU', h1, h2, h3, h4, h5, h6⟩ :=
      exp_jitter_pair us k 0 (({ b with jitter := false } :
          ExponentialBuilder).build []) us rfl htd
        (Or.inl (List.drop_zero us).symm)
    refine ⟨outsJ, sJ, outsU, sU', ?_, h2, h3, h4, h5, ?_⟩
    · rw [hb]
      exact h1
    · intro m hm
      have := h6 m (by omega)
      simpa using this
  · intro d u hu
    exact mulF32_le d u hu

theorem c7_jitter_not_compounding_witness : mulF32 5 ⟨1, 2⟩ ≤ 5 :=
  c7_jitter_not_compounding.2 5 ⟨1, 2⟩ (by decide)
